import Mathlib

/-!
Verification of the volt install engine core (src/core/utils/mod.rs)
against its specification.

The development shallowly embeds the relevant Rust functions:

  decompress_gzip      (mod.rs lines 46-65)
  verify_checksum      (mod.rs lines 343-365)
  link_dependencies    (mod.rs lines 367-427, unix code path)
  install_package      (mod.rs lines 429-543)

Modelling conventions:

  Bytes are lists of naturals (u8 values).  File-system paths are lists
  of path components (unix semantics: the separator is the slash and a
  backslash is an ordinary character).  PathBuf::push of a relative
  string is modelled by splitting the pushed string on slashes, which is
  what the unix PathBuf implementation does for the strings pushed here.

  External collaborators that live outside src (the registry fetch, the
  libdeflater decompressor, VoltConfig::calc_hash, extract_tarball,
  cacache) are passed in as oracle functions in an environment record.
  The type of the libdeflater gzip_decompress oracle reflects the Rust
  signature: it fills a caller-allocated byte buffer passed as a
  mutable slice, so a successful call cannot change the buffer length;
  that fact is carried as an explicit hypothesis where needed.

  Syscall-level effects (create_dir_all, File::create + write_all,
  symlink) are recorded in an event trace, and the materialized files
  and the symlink table are threaded as association lists.  The chunked
  blocking tasks of install_package are linearized chunk by chunk; the
  claims checked here depend only on the multiset of emitted events and
  on the final file contents, which the linearization preserves.
-/

/-- One byte string / byte buffer (u8 values). -/
abbrev Bytes := List Nat

/-- A file-system path, as a list of path components. -/
abbrev FsPath := List (List Char)

/-- Split a Rust path string on slashes, dropping empty components.
This is what unix PathBuf::push does with the relative strings pushed
by the volt source (trailing slashes are ignored, embedded slashes
create intermediate components). -/
def splitSlash (s : List Char) : FsPath :=
  go s []
where
  go : List Char → List Char → FsPath
    | [], acc => if acc = [] then [] else [acc.reverse]
    | c :: rest, acc =>
      if c = '/' then
        (if acc = [] then [] else [acc.reverse]) ++ go rest []
      else
        go rest (c :: acc)

/-- PathBuf::push of a relative string (unix semantics). -/
def pushStr (p : FsPath) (s : List Char) : FsPath :=
  p ++ splitSlash s

/-- Fuel-driven worker for `replaceList`; the fuel is the length of the
scanned list, which suffices because every step consumes at least one
character. -/
def replaceGo (pat rep : List Char) : Nat → List Char → List Char
  | _, [] => []
  | 0, s => s
  | f + 1, c :: t =>
    if pat.isPrefixOf (c :: t) then
      rep ++ replaceGo pat rep f ((c :: t).drop pat.length)
    else
      c :: replaceGo pat rep f t

/-- Rust str::replace: replace every non-overlapping occurrence of
`pat` by `rep`, scanning left to right. -/
def replaceList (s pat rep : List Char) : List Char :=
  replaceGo pat rep s.length s

/-- u32::from_le_bytes on a 4-byte little-endian buffer (mod.rs line 54). -/
def byteLE4 (l : Bytes) : Nat :=
  match l with
  | [a, b, c, d] => a % 256 + 256 * (b % 256) + 65536 * (c % 256) + 16777216 * (d % 256)
  | _ => 0

/-- Result of `decompress_gzip`, distinguishing a Rust panic (slice
index out of range) from an error returned through miette::Result. -/
inductive GzResult where
  | panicked
  | error
  | ok (out : Bytes)
deriving DecidableEq

/-- Shallow embedding of `decompress_gzip` (mod.rs lines 46-65).

`isize_start = gz_data.len() - 4` is usize arithmetic: in release
builds the subtraction wraps modulo 2^64, and the subsequent slice
`gz_data[isize_start..]` panics when the start exceeds the length
(in debug builds the subtraction itself panics; either way the
function panics for inputs shorter than 4 bytes).  The output buffer
`vec![0; isize]` is handed to libdeflater::gzip_decompress, modelled
by the `gzipDecompress` oracle that fills the buffer. -/
def decompress_gzip (gzipDecompress : Bytes → Bytes → Option Bytes)
    (gz_data : Bytes) : GzResult :=
  if (gz_data.length + (2 ^ 64 - 4)) % 2 ^ 64 > gz_data.length then
    GzResult.panicked
  else if (gz_data.drop ((gz_data.length + (2 ^ 64 - 4)) % 2 ^ 64)).length = 4 then
    match gzipDecompress gz_data
        (List.replicate (byteLE4 (gz_data.drop ((gz_data.length + (2 ^ 64 - 4)) % 2 ^ 64))) 0) with
    | none => GzResult.error
    | some filled => GzResult.ok filled
  else
    GzResult.error

/-- The two hash algorithms of the ssri Algorithm values used by the
source (mod.rs lines 352-356). -/
inductive HashAlg where
  | sha1
  | sha512
deriving DecidableEq

/-- The algorithm-selection expression of `verify_checksum`
(mod.rs lines 352-356): anything that does not start with "sha1"
is hashed with sha512. -/
def checksum_algorithm (expected_checksum : List Char) : HashAlg :=
  if ("sha1".data).isPrefixOf expected_checksum then HashAlg.sha1
  else HashAlg.sha512

/-- Shallow embedding of `verify_checksum` (mod.rs lines 343-365).
`calcHash` is the external VoltConfig::calc_hash, producing the SRI
string of the computed digest.  The function compares the calculated
SRI string with the whole expected string and reports the calculated
one on mismatch; it has no rejection path for unsupported algorithms. -/
def verify_checksum (calcHash : Bytes → HashAlg → List Char)
    (response : Bytes) (expected_checksum : List Char) :
    Bool × Option (List Char) :=
  let algorithm := checksum_algorithm expected_checksum
  let calculated_checksum := calcHash response algorithm
  if calculated_checksum = expected_checksum then (true, none)
  else (false, some calculated_checksum)

/-- A concrete stand-in for VoltConfig::calc_hash used in closed
evaluations: it returns a fixed SRI string per algorithm, making the
selected algorithm observable in the output. -/
def calcHashW : Bytes → HashAlg → List Char :=
  fun _ a =>
    match a with
    | HashAlg.sha1 => "sha1-CALC".data
    | HashAlg.sha512 => "sha512-CALC".data

/-- The VoltPackage fields consumed by the embedded functions
(voltapi::VoltPackage; only the fields read by mod.rs are modelled). -/
structure VoltPackage where
  name : List Char
  version : List Char
  integrity : List Char
  dependencies : Option (List (List Char × List Char))
deriving DecidableEq

/-- Outcome of an embedded operation: success, an error propagated
through miette::Result, a std::process::exit, or a panic. -/
inductive InstallOutcome where
  | success
  | error
  | processExit (code : Nat)
deriving DecidableEq

/-- Trace of syscall-level effects performed by the embedded code. -/
inductive Event where
  | fetch
  | verifyChecksum
  | decompress
  | extract
  | mkdirAll (p : FsPath)
  | writeFile (p : FsPath) (contents : Bytes)
  | symlink (original link : FsPath)
deriving DecidableEq

/-- Materialized files: association list from path to contents;
the most recent write shadows older entries. -/
abbrev Fs := List (FsPath × Bytes)

/-- Existing directory entries relevant to link creation: association
list from a link location to the path it points at. -/
abbrev LinkFs := List (FsPath × FsPath)

def fsGet : Fs → FsPath → Option Bytes
  | [], _ => none
  | (q, c) :: rest, p => if q = p then some c else fsGet rest p

def fsSet (fs : Fs) (p : FsPath) (c : Bytes) : Fs :=
  (p, c) :: fs

def linksGet : LinkFs → FsPath → Option FsPath
  | [], _ => none
  | (q, t) :: rest, p => if q = p then some t else linksGet rest p

/-- The two paths computed for one dependency edge by
`link_dependencies` (mod.rs lines 370-403).  The first component is
`dependency_link_path` (where the dependency is materialized, the
symlink's pointee) and the second is `target_link_path` (the slot in
the parent package where the symlink is created):
`std::os::unix::fs::symlink(dependency_link_path, target_link_path)`. -/
def dependency_slot (node_modules : FsPath) (pkg : VoltPackage)
    (key version : List Char) : FsPath × FsPath :=
  let name := replaceList key ('@' :: version) []
  let dependency_link_path :=
    pushStr (pushStr (pushStr (pushStr node_modules ".volt".data)
      (replaceList name [ '/' ] [ '+' ] ++ '@' :: version)) "node_modules".data) name
  let target_link_path :=
    pushStr (pushStr (pushStr (pushStr node_modules ".volt".data)
      (replaceList pkg.name [ '/' ] [ '+' ] ++ '@' :: pkg.version)) "node_modules".data) name
  (dependency_link_path, target_link_path)

/-- Result of the embedded `link_dependencies`. -/
structure LinkResult where
  outcome : InstallOutcome
  events : List Event
  links : LinkFs
deriving DecidableEq

/-- Per-edge loop of `link_dependencies` (mod.rs lines 370-423, unix
code path).  The symlink syscall fails when the link location already
holds an entry (EEXIST, whatever it points at); the source reacts to
any symlink error with eprintln + std::process::exit(1). -/
def linkDepsGo (node_modules : FsPath) (pkg : VoltPackage) :
    List (List Char × List Char) → LinkFs → LinkResult
  | [], links => ⟨InstallOutcome.success, [], links⟩
  | (key, version) :: rest, links =>
    let slot := dependency_slot node_modules pkg key version
    match linksGet links slot.2 with
    | some _ => ⟨InstallOutcome.processExit 1, [], links⟩
    | none =>
      let r := linkDepsGo node_modules pkg rest ((slot.2, slot.1) :: links)
      ⟨r.outcome, Event.symlink slot.1 slot.2 :: r.events, r.links⟩

/-- Shallow embedding of `link_dependencies` (mod.rs lines 367-427). -/
def link_dependencies (pkg : VoltPackage) (node_modules : FsPath)
    (links : LinkFs) : LinkResult :=
  match pkg.dependencies with
  | none => ⟨InstallOutcome.success, [], links⟩
  | some deps => linkDepsGo node_modules pkg deps links

/-- Rust Path::parent on a relative path: None for the empty path,
otherwise the path without its last component ("index.js".parent()
is Some("")). -/
def parentPath : FsPath → Option FsPath
  | [] => none
  | p => some p.dropLast

/-- Fuel-driven worker for `toChunks6`.  At fuel 0 a leftover
nonempty list is kept as a single chunk, which keeps the
concatenation of the chunks equal to the input at every fuel. -/
def chunksGo : Nat → List α → List (List α)
  | _, [] => []
  | 0, l => [l]
  | f + 1, l => l.take 6 :: chunksGo f (l.drop 6)

/-- Vec::chunks(6) (mod.rs line 453): the file map processed in
fixed-size chunks of six entries. -/
def toChunks6 (l : List α) : List (List α) :=
  chunksGo l.length l

/-- One per-chunk blocking task of install_package (mod.rs lines
460-488).  `created` holds the paths pushed into
created_directories_instance so far (the source pushes the FILE path
and checks membership against the file path; the `value` passed to
create_dir_all is the parent of the map key).  Returns the updated
file table, the emitted events, and whether the task finished without
a blob-read error. -/
def materializeChunk (blobRead : Nat → Option Bytes) (package_path : FsPath) :
    List (FsPath × Nat) → List FsPath → Fs → Fs × List Event × Bool
  | [], _, fs => (fs, [], true)
  | (name, hash) :: rest, created, fs =>
    match blobRead hash with
    | none => (fs, [], false)
    | some contents =>
      let file_path := package_path ++ name
      let step :=
        if file_path ∈ created then (created, ([] : List Event))
        else
          match parentPath name with
          | some value => (created ++ [file_path], [Event.mkdirAll (package_path ++ value)])
          | none => (created, [])
      let r := materializeChunk blobRead package_path rest step.1 (fsSet fs file_path contents)
      (r.1, step.2 ++ Event.writeFile file_path contents :: r.2.1, r.2.2)

/-- The chunk loop of install_package (mod.rs lines 453-502).  Every
blocking task clones the OUTER created_directories vector, which is
always empty, so each chunk starts with an empty memo.  The await
loop exits the process at the first failed task; the linearization
stops there. -/
def materializeAll (blobRead : Nat → Option Bytes) (package_path : FsPath) :
    List (List (FsPath × Nat)) → Fs → Fs × List Event × Bool
  | [], fs => (fs, [], true)
  | chunk :: rest, fs =>
    let r := materializeChunk blobRead package_path chunk [] fs
    if r.2.2 then
      let r2 := materializeAll blobRead package_path rest r.1
      (r2.1, r.2.1 ++ r2.2.1, r2.2.2)
    else
      (r.1, r.2.1, false)

/-- The materialization root built by install_package (mod.rs lines
444-449): `.volt/` then `{name}@{version}` with the RAW name, then
`node_modules/`, then the name with '/' replaced by '\' (r"\"). -/
def install_package_path (node_modules : FsPath) (pkg : VoltPackage) : FsPath :=
  pushStr (pushStr (pushStr (pushStr node_modules ".volt/".data)
    (pkg.name ++ '@' :: pkg.version)) "node_modules/".data)
    (replaceList pkg.name [ '/' ] [ '\\' ])

/-- Modelled from the spec: the materialization root mandated by the
specification, `⟨store⟩/⟨name+⟩@⟨version⟩/node_modules/⟨name⟩`, where
`⟨name+⟩` is the name with '/' replaced by '+' and the nested
scope/pkg structure is preserved unescaped in the final
`node_modules/` subtree.  Used only to compare the source's path
against the specified one. -/
def spec_materialization_root (node_modules : FsPath) (name version : List Char) : FsPath :=
  pushStr (pushStr (pushStr (pushStr node_modules ".volt".data)
    (replaceList name [ '/' ] [ '+' ] ++ '@' :: version)) "node_modules".data) name

/-- External collaborators of install_package, passed as oracles:
cacache reads, the registry fetch, VoltConfig::calc_hash, libdeflater
and extract_tarball all live outside src/core/utils/mod.rs. -/
structure InstallEnv where
  casRead : Option (List (FsPath × Nat))
  blobRead : Nat → Option Bytes
  fetchResult : Option Bytes
  calcHash : Bytes → HashAlg → List Char
  gzipDecompress : Bytes → Bytes → Option Bytes
  extractOk : Bytes → Bool

/-- Result of the embedded install_package. -/
structure InstallResult where
  outcome : InstallOutcome
  events : List Event
  fs : Fs
  links : LinkFs
deriving DecidableEq

/-- Shallow embedding of `install_package` (mod.rs lines 429-543).

Cache hit (verify_existing_installation succeeded): deserialize the
file map, materialize it in chunks of six, then link dependencies; a
failed blocking task makes the await loop exit the process.

Cache miss: fetch the tarball (fetch events recorded), verify the
checksum, and only when it matches decompress, extract, generate
scripts (a no-op on unix) and link; on a mismatch the source falls
into the branch marked "TODO: handle checksum failure", does nothing,
and returns Ok(()). -/
def install_package (node_modules : FsPath) (pkg : VoltPackage)
    (env : InstallEnv) (fs : Fs) (links : LinkFs) : InstallResult :=
  match env.casRead with
  | some cas_file_map =>
    let package_path := install_package_path node_modules pkg
    let m := materializeAll env.blobRead package_path (toChunks6 cas_file_map) fs
    if m.2.2 then
      let lr := link_dependencies pkg node_modules links
      ⟨lr.outcome, m.2.1 ++ lr.events, m.1, lr.links⟩
    else
      ⟨InstallOutcome.processExit 1, m.2.1, m.1, links⟩
  | none =>
    match env.fetchResult with
    | none => ⟨InstallOutcome.error, [Event.fetch], fs, links⟩
    | some response =>
      let v := verify_checksum env.calcHash response pkg.integrity
      if v.1 then
        match decompress_gzip env.gzipDecompress response with
        | GzResult.panicked =>
          ⟨InstallOutcome.error, [Event.fetch, Event.verifyChecksum, Event.decompress], fs, links⟩
        | GzResult.error =>
          ⟨InstallOutcome.error, [Event.fetch, Event.verifyChecksum, Event.decompress], fs, links⟩
        | GzResult.ok decompressed =>
          if env.extractOk decompressed then
            let lr := link_dependencies pkg node_modules links
            ⟨lr.outcome,
              Event.fetch :: Event.verifyChecksum :: Event.decompress :: Event.extract :: lr.events,
              fs, lr.links⟩
          else
            ⟨InstallOutcome.error,
              [Event.fetch, Event.verifyChecksum, Event.decompress, Event.extract], fs, links⟩
      else
        ⟨InstallOutcome.success, [Event.fetch, Event.verifyChecksum], fs, links⟩

/-- Characterization of the events a materialization of file map `l`
can emit: only directory creations and writes of a map entry's blob
at the entry's path under the package root. -/
def matEventOf (blobRead : Nat → Option Bytes) (package_path : FsPath)
    (l : List (FsPath × Nat)) : Event → Prop
  | Event.mkdirAll _ => True
  | Event.writeFile p c =>
    ∃ n h, (n, h) ∈ l ∧ p = package_path ++ n ∧ blobRead h = some c
  | _ => False

/-- The file table produced by writing every map entry in order. -/
def matFolds (blobRead : Nat → Option Bytes) (package_path : FsPath)
    (l : List (FsPath × Nat)) (fs : Fs) : Fs :=
  l.foldl (fun acc nh => fsSet acc (package_path ++ nh.1) ((blobRead nh.2).getD [])) fs

/-- Package used in the C4 evaluation: `a@1` with one dependency `b@2`. -/
def pkgC4 : VoltPackage :=
  ⟨ "a".data, "1".data, "sha1-i".data, some [ ( "b".data, "2".data) ]⟩

/-- Pre-existing link table for C4: the link location
`nm/.volt/a@1/node_modules/b` already holds an entry that points at
the intended target `nm/.volt/b@2/node_modules/b`. -/
def linksC4 : LinkFs :=
  [ ( [ "nm".data, ".volt".data, "a@1".data, "node_modules".data, "b".data ],
      [ "nm".data, ".volt".data, "b@2".data, "node_modules".data, "b".data ] ) ]

/-- Environment for the C1 evaluation: cache miss, a fetched tarball
of bytes [9, 9, 9], and a hasher whose sha1 digest string differs
from the package's integrity field. -/
def envC1 : InstallEnv :=
  { casRead := none
    blobRead := fun _ => none
    fetchResult := some [ 9, 9, 9 ]
    calcHash := calcHashW
    gzipDecompress := fun _ _ => none
    extractOk := fun _ => false }

/-- Package for the C1 evaluation: its integrity string does not
match the digest of the fetched bytes. -/
def pkgC1 : VoltPackage :=
  ⟨ "left-pad".data, "1.3.0".data, "sha1-AAAAAAAAAAAAAAAAAAAAAAAAAAA=".data, none⟩

/-- Environment for the C8 evaluation: a cached file map holding two
files in the same subdirectory lib/, with both blobs available. -/
def envC8 : InstallEnv :=
  { casRead := some [ ( [ "lib".data, "a.js".data ], 1), ( [ "lib".data, "b.js".data ], 2) ]
    blobRead := fun h => if h = 1 then some [ 10 ] else if h = 2 then some [ 20 ] else none
    fetchResult := none
    calcHash := calcHashW
    gzipDecompress := fun _ _ => none
    extractOk := fun _ => false }

/-- Package for the C8 and C5 evaluations. -/
def pkgC8 : VoltPackage :=
  ⟨ "p".data, "1".data, "sha1-i".data, none⟩

/-- Environment for the C5 counterexample: a cached file map with one
entry index.js whose blob is [1, 2]. -/
def envC5 : InstallEnv :=
  { casRead := some [ ( [ "index.js".data ], 7) ]
    blobRead := fun h => if h = 7 then some [ 1, 2 ] else none
    fetchResult := none
    calcHash := calcHashW
    gzipDecompress := fun _ _ => none
    extractOk := fun _ => false }

/-- Initial file table for the C5 counterexample: the target file
already exists with contents equal to the blob. -/
def fsC5 : Fs :=
  [ (install_package_path [ "nm".data ] pkgC8 ++ [ [ 'i', 'n', 'd', 'e', 'x', '.', 'j', 's' ] ], [ 1, 2 ]) ]

/-- replaceGo leaves the list unchanged when the pattern occurs
nowhere in it, at any fuel. -/
theorem replaceGo_of_not_infix (pat rep : List Char) :
    ∀ (f : Nat) (s : List Char), ¬ pat <:+: s → replaceGo pat rep f s = s := by
  intro f
  induction f with
  | zero =>
    intro s _
    cases s <;> rfl
  | succ f ih =>
    intro s hs
    cases s with
    | nil => rfl
    | cons c t =>
      unfold replaceGo
      have hpre : pat.isPrefixOf (c :: t) = false := by
        by_contra hx
        have hb : pat.isPrefixOf (c :: t) = true := by
          cases hv : pat.isPrefixOf (c :: t)
          · exact absurd hv hx
          · rfl
        have hp : pat <+: (c :: t) := List.isPrefixOf_iff_prefix.mp hb
        exact hs hp.isInfix
      rw [hpre]
      simp only [Bool.false_eq_true, if_false]
      have ht : ¬ pat <:+: t := fun hx => hs (List.infix_cons hx)
      rw [ih t ht]

/-- The pattern '@' :: v cannot be a proper prefix of name ++ '@' :: v
when v contains no '@', name is nonempty, and the pattern does not
occur inside name: a match would either lie entirely inside name or
force a second '@' into the pattern. -/
theorem not_pat_prefix_append (v : List Char) (hv : '@' ∉ v)
    (name : List Char) (hname : name ≠ [])
    (hninf : ¬ ('@' :: v) <:+: name) :
    ¬ ('@' :: v) <+: (name ++ '@' :: v) := by
  intro hp
  by_cases hlen : ('@' :: v).length ≤ name.length
  · have htake : '@' :: v = (name ++ '@' :: v).take ('@' :: v).length :=
      List.prefix_iff_eq_take.mp hp
    rw [List.take_append_of_le_length hlen] at htake
    have hpn : '@' :: v <+: name := htake ▸ List.take_prefix _ name
    exact hninf hpn.isInfix
  · push_neg at hlen
    obtain ⟨r, hr⟩ := hp
    have hnpos : 0 < name.length := List.length_pos.mpr hname
    have e0 : (('@' :: v) ++ r)[name.length]? = (name ++ '@' :: v)[name.length]? := by
      rw [hr]
    have e1 : (('@' :: v) ++ r)[name.length]? = ('@' :: v)[name.length]? := by
      rw [List.getElem?_append, if_pos hlen]
    have e2 : (name ++ '@' :: v)[name.length]? = some '@' := by
      rw [List.getElem?_append_right (Nat.le_refl name.length), Nat.sub_self]
      simp
    have e3 : ('@' :: v)[name.length]? = some '@' := by
      rw [← e1, e0]
      exact e2
    obtain ⟨m, hm⟩ : ∃ m, name.length = m + 1 := ⟨name.length - 1, by omega⟩
    rw [hm, List.getElem?_cons_succ] at e3
    obtain ⟨hi, hvm⟩ := List.getElem?_eq_some_iff.mp e3
    exact hv (hvm ▸ List.getElem_mem _)

/-- replaceGo on name ++ '@' :: v removes exactly the appended
pattern, provided v contains no '@', the pattern does not occur in
name, and the fuel covers the list. -/
theorem replaceGo_append_pat (v : List Char) (hv : '@' ∉ v) :
    ∀ (f : Nat) (name : List Char),
      (name ++ '@' :: v).length ≤ f → ¬ ('@' :: v) <:+: name →
      replaceGo ('@' :: v) [] f (name ++ '@' :: v) = name := by
  intro f
  induction f with
  | zero =>
    intro name hf _
    exact absurd hf (by simp)
  | succ f ih =>
    intro name hf hninf
    cases name with
    | nil =>
      simp only [List.nil_append]
      unfold replaceGo
      have hpre : ('@' :: v).isPrefixOf ('@' :: v) = true :=
        List.isPrefixOf_iff_prefix.mpr (List.prefix_refl _)
      rw [hpre]
      simp only [if_true]
      rw [List.drop_length]
      cases f <;> rfl
    | cons c t =>
      have hs : (c :: t) ++ '@' :: v = c :: (t ++ '@' :: v) := rfl
      rw [hs]
      unfold replaceGo
      have hpre : ('@' :: v).isPrefixOf (c :: (t ++ '@' :: v)) = false := by
        by_contra hx
        have hb : ('@' :: v).isPrefixOf (c :: (t ++ '@' :: v)) = true := by
          cases hvv : ('@' :: v).isPrefixOf (c :: (t ++ '@' :: v))
          · exact absurd hvv hx
          · rfl
        have hp : ('@' :: v) <+: ((c :: t) ++ '@' :: v) :=
          List.isPrefixOf_iff_prefix.mp hb
        exact not_pat_prefix_append v hv (c :: t) (by simp) hninf hp
      rw [hpre]
      simp only [Bool.false_eq_true, if_false]
      have ht : ¬ ('@' :: v) <:+: t := fun hx => hninf (List.infix_cons hx)
      have hf' : (t ++ '@' :: v).length ≤ f := by
        have := hf
        simp only [List.length_append, List.length_cons] at this ⊢
        omega
      rw [ih t hf' ht]

theorem chunksGo_flatten : ∀ (f : Nat) (l : List α), (chunksGo f l).flatten = l := by
  intro f
  induction f with
  | zero =>
    intro l
    cases l <;> simp [chunksGo]
  | succ f ih =>
    intro l
    cases l with
    | nil => simp [chunksGo]
    | cons a t =>
      simp only [chunksGo, List.flatten_cons, ih]
      exact List.take_append_drop 6 (a :: t)

theorem toChunks6_flatten (l : List α) : (toChunks6 l).flatten = l :=
  chunksGo_flatten l.length l

theorem matEventOf_mono (br : Nat → Option Bytes) (pp : FsPath)
    {l l' : List (FsPath × Nat)} (hsub : ∀ x ∈ l, x ∈ l')
    {e : Event} (h : matEventOf br pp l e) : matEventOf br pp l' e := by
  cases e with
  | mkdirAll p => trivial
  | writeFile p c =>
    obtain ⟨n, hh, hmem, hp, hbr⟩ := h
    exact ⟨n, hh, hsub _ hmem, hp, hbr⟩
  | fetch => exact h
  | verifyChecksum => exact h
  | decompress => exact h
  | extract => exact h
  | symlink a b => exact h

theorem materializeChunk_events (br : Nat → Option Bytes) (pp : FsPath) :
    ∀ (chunk : List (FsPath × Nat)) (created : List FsPath) (fs : Fs),
      ∀ e ∈ (materializeChunk br pp chunk created fs).2.1, matEventOf br pp chunk e := by
  intro chunk
  induction chunk with
  | nil =>
    intro created fs e he
    simp [materializeChunk] at he
  | cons nh rest ih =>
    intro created fs e he
    obtain ⟨name, hash⟩ := nh
    simp only [materializeChunk] at he
    cases hbr : br hash with
    | none =>
      rw [hbr] at he
      simp at he
    | some contents =>
      rw [hbr] at he
      simp only [List.mem_append, List.mem_cons] at he
      rcases he with hstep | heq | hrest
      · -- e is in the per-entry mkdir events, which are [] or [mkdirAll _]
        by_cases hc : pp ++ name ∈ created
        · rw [if_pos hc] at hstep
          simp at hstep
        · rw [if_neg hc] at hstep
          cases hpar : parentPath name with
          | some value =>
            rw [hpar] at hstep
            simp at hstep
            rw [hstep]
            trivial
          | none =>
            rw [hpar] at hstep
            simp at hstep
      · rw [heq]
        exact ⟨name, hash, List.mem_cons_self _ _, rfl, hbr⟩
      · have := ih _ _ _ hrest
        exact matEventOf_mono br pp (fun x hx => List.mem_cons_of_mem _ hx) this

theorem materializeAll_events (br : Nat → Option Bytes) (pp : FsPath) :
    ∀ (chunks : List (List (FsPath × Nat))) (fs : Fs),
      ∀ e ∈ (materializeAll br pp chunks fs).2.1, matEventOf br pp chunks.flatten e := by
  intro chunks
  induction chunks with
  | nil =>
    intro fs e he
    simp [materializeAll] at he
  | cons chunk rest ih =>
    intro fs e he
    simp only [materializeAll] at he
    have hsubchunk : ∀ x ∈ chunk, x ∈ (chunk :: rest).flatten := by
      intro x hx
      simp [List.mem_flatten]
      exact Or.inl hx
    by_cases hok : (materializeChunk br pp chunk [] fs).2.2 = true
    · rw [if_pos hok] at he
      simp only [List.mem_append] at he
      rcases he with hc | hr
      · exact matEventOf_mono br pp hsubchunk (materializeChunk_events br pp chunk [] fs e hc)
      · have := ih _ _ hr
        refine matEventOf_mono br pp ?_ this
        intro x hx
        simp [List.mem_flatten] at hx ⊢
        obtain ⟨s, hs, hxs⟩ := hx
        exact Or.inr ⟨s, hs, hxs⟩
    · rw [if_neg hok] at he
      exact matEventOf_mono br pp hsubchunk (materializeChunk_events br pp chunk [] fs e he)

theorem linkDepsGo_events (nm : FsPath) (pkg : VoltPackage) :
    ∀ (deps : List (List Char × List Char)) (links : LinkFs),
      ∀ e ∈ (linkDepsGo nm pkg deps links).events, ∃ a b, e = Event.symlink a b := by
  intro deps
  induction deps with
  | nil =>
    intro links e he
    simp [linkDepsGo] at he
  | cons kv rest ih =>
    intro links e he
    obtain ⟨key, version⟩ := kv
    simp only [linkDepsGo] at he
    cases hl : linksGet links (dependency_slot nm pkg key version).2 with
    | some t =>
      rw [hl] at he
      simp at he
    | none =>
      rw [hl] at he
      simp only [List.mem_cons] at he
      rcases he with heq | hr
      · exact ⟨_, _, heq⟩
      · exact ih _ _ hr

theorem link_dependencies_events (pkg : VoltPackage) (nm : FsPath) (links : LinkFs) :
    ∀ e ∈ (link_dependencies pkg nm links).events, ∃ a b, e = Event.symlink a b := by
  intro e he
  unfold link_dependencies at he
  cases hd : pkg.dependencies with
  | none =>
    rw [hd] at he
    simp at he
  | some deps =>
    rw [hd] at he
    exact linkDepsGo_events nm pkg deps links e he

theorem matFolds_append (br : Nat → Option Bytes) (pp : FsPath)
    (l1 l2 : List (FsPath × Nat)) (fs : Fs) :
    matFolds br pp (l1 ++ l2) fs = matFolds br pp l2 (matFolds br pp l1 fs) := by
  simp [matFolds, List.foldl_append]

theorem materializeChunk_success_fs (br : Nat → Option Bytes) (pp : FsPath) :
    ∀ (chunk : List (FsPath × Nat)) (created : List FsPath) (fs : Fs),
      (∀ nh ∈ chunk, (br nh.2).isSome = true) →
      (materializeChunk br pp chunk created fs).2.2 = true ∧
      (materializeChunk br pp chunk created fs).1 = matFolds br pp chunk fs := by
  intro chunk
  induction chunk with
  | nil =>
    intro created fs _
    exact ⟨rfl, rfl⟩
  | cons nh rest ih =>
    intro created fs hall
    obtain ⟨name, hash⟩ := nh
    have hsome : (br hash).isSome = true := hall (name, hash) (List.mem_cons_self _ _)
    obtain ⟨contents, hbr⟩ := Option.isSome_iff_exists.mp hsome
    have hrest : ∀ x ∈ rest, (br x.2).isSome = true :=
      fun x hx => hall x (List.mem_cons_of_mem _ hx)
    constructor
    · simp only [materializeChunk, hbr]
      exact (ih _ _ hrest).1
    · simp only [materializeChunk, hbr]
      have heq := (ih (if pp ++ name ∈ created then created
          else match parentPath name with
            | some _ => created ++ [pp ++ name]
            | none => created) (fsSet fs (pp ++ name) contents) hrest).2
      refine Eq.trans ?_ (by simp [matFolds, hbr] : matFolds br pp rest (fsSet fs (pp ++ name) contents) = matFolds br pp ((name, hash) :: rest) fs)
      exact (ih _ _ hrest).2

theorem materializeChunk_write_mem (br : Nat → Option Bytes) (pp : FsPath) :
    ∀ (chunk : List (FsPath × Nat)) (created : List FsPath) (fs : Fs),
      (∀ nh ∈ chunk, (br nh.2).isSome = true) →
      ∀ (n : FsPath) (h : Nat) (c : Bytes), (n, h) ∈ chunk → br h = some c →
        Event.writeFile (pp ++ n) c ∈ (materializeChunk br pp chunk created fs).2.1 := by
  intro chunk
  induction chunk with
  | nil =>
    intro created fs _ n h c hmem _
    simp at hmem
  | cons nh rest ih =>
    intro created fs hall n h c hmem hc
    obtain ⟨name, hash⟩ := nh
    have hsome : (br hash).isSome = true := hall (name, hash) (List.mem_cons_self _ _)
    obtain ⟨contents, hbr⟩ := Option.isSome_iff_exists.mp hsome
    have hrest : ∀ x ∈ rest, (br x.2).isSome = true :=
      fun x hx => hall x (List.mem_cons_of_mem _ hx)
    simp only [materializeChunk, hbr]
    rcases List.mem_cons.mp hmem with heq | htail
    · injection heq with h1 h2
      subst h1
      subst h2
      have hcc : contents = c := by
        rw [hbr] at hc
        injection hc
      subst hcc
      exact List.mem_append_right _ (List.mem_cons_self _ _)
    · exact List.mem_append_right _
        (List.mem_cons_of_mem _ (ih _ _ hrest n h c htail hc))

theorem materializeAll_success_fs (br : Nat → Option Bytes) (pp : FsPath) :
    ∀ (chunks : List (List (FsPath × Nat))) (fs : Fs),
      (∀ chunk ∈ chunks, ∀ nh ∈ chunk, (br nh.2).isSome = true) →
      (materializeAll br pp chunks fs).2.2 = true ∧
      (materializeAll br pp chunks fs).1 = matFolds br pp chunks.flatten fs := by
  intro chunks
  induction chunks with
  | nil =>
    intro fs _
    exact ⟨rfl, rfl⟩
  | cons chunk rest ih =>
    intro fs hall
    have hchunk : ∀ nh ∈ chunk, (br nh.2).isSome = true :=
      hall chunk (List.mem_cons_self _ _)
    have hrest : ∀ c ∈ rest, ∀ nh ∈ c, (br nh.2).isSome = true :=
      fun c hc => hall c (List.mem_cons_of_mem _ hc)
    have hc := materializeChunk_success_fs br pp chunk [] fs hchunk
    constructor
    · simp only [materializeAll]
      rw [if_pos hc.1]
      exact (ih _ hrest).1
    · simp only [materializeAll]
      rw [if_pos hc.1]
      have := (ih (materializeChunk br pp chunk [] fs).1 hrest).2
      rw [List.flatten_cons, matFolds_append, ← hc.2]
      exact this

theorem materializeAll_write_mem (br : Nat → Option Bytes) (pp : FsPath) :
    ∀ (chunks : List (List (FsPath × Nat))) (fs : Fs),
      (∀ chunk ∈ chunks, ∀ nh ∈ chunk, (br nh.2).isSome = true) →
      ∀ (n : FsPath) (h : Nat) (c : Bytes) (chunk : List (FsPath × Nat)),
        chunk ∈ chunks → (n, h) ∈ chunk → br h = some c →
        Event.writeFile (pp ++ n) c ∈ (materializeAll br pp chunks fs).2.1 := by
  intro chunks
  induction chunks with
  | nil =>
    intro fs _ n h c chunk hchunk _ _
    simp at hchunk
  | cons chunk0 rest ih =>
    intro fs hall n h c chunk hchunk hmem hc
    have hchunk0 : ∀ nh ∈ chunk0, (br nh.2).isSome = true :=
      hall chunk0 (List.mem_cons_self _ _)
    have hrest : ∀ cc ∈ rest, ∀ nh ∈ cc, (br nh.2).isSome = true :=
      fun cc hcc => hall cc (List.mem_cons_of_mem _ hcc)
    have hok := (materializeChunk_success_fs br pp chunk0 [] fs hchunk0).1
    simp only [materializeAll]
    rw [if_pos hok]
    rcases List.mem_cons.mp hchunk with heq | htail
    · subst heq
      exact List.mem_append_left _
        (materializeChunk_write_mem br pp chunk [] fs hchunk0 n h c hmem hc)
    · exact List.mem_append_right _
        (ih _ hrest n h c chunk htail hmem hc)

theorem fsGet_matFolds_not_mem (br : Nat → Option Bytes) (pp : FsPath) :
    ∀ (l : List (FsPath × Nat)) (fs : Fs) (p : FsPath),
      (∀ nh ∈ l, pp ++ nh.1 ≠ p) →
      fsGet (matFolds br pp l fs) p = fsGet fs p := by
  intro l
  induction l with
  | nil =>
    intro fs p _
    rfl
  | cons nh rest ih =>
    intro fs p hne
    have hstep : matFolds br pp (nh :: rest) fs =
        matFolds br pp rest (fsSet fs (pp ++ nh.1) ((br nh.2).getD [])) := by
      simp [matFolds]
    rw [hstep, ih _ p (fun x hx => hne x (List.mem_cons_of_mem _ hx))]
    have hh : pp ++ nh.1 ≠ p := hne nh (List.mem_cons_self _ _)
    simp [fsSet, fsGet, hh]

theorem fsGet_matFolds_mem (br : Nat → Option Bytes) (pp : FsPath) :
    ∀ (l : List (FsPath × Nat)) (fs : Fs) (n : FsPath) (h : Nat) (c : Bytes),
      (l.map Prod.fst).Nodup → (n, h) ∈ l → br h = some c →
      fsGet (matFolds br pp l fs) (pp ++ n) = some c := by
  intro l
  induction l with
  | nil =>
    intro fs n h c _ hmem _
    simp at hmem
  | cons nh rest ih =>
    intro fs n h c hnodup hmem hc
    have hstep : matFolds br pp (nh :: rest) fs =
        matFolds br pp rest (fsSet fs (pp ++ nh.1) ((br nh.2).getD [])) := by
      simp [matFolds]
    have hnodup' := hnodup
    rw [List.map_cons] at hnodup'
    have hnd := List.nodup_cons.mp hnodup'
    rcases List.mem_cons.mp hmem with heq | htail
    · subst heq
      rw [hstep]
      rw [fsGet_matFolds_not_mem br pp rest _ _ ?_]
      · simp only [fsSet, fsGet, if_pos rfl]
        rw [hc]
        rfl
      · intro x hx hcontra
        have hx1 : x.1 = n := List.append_cancel_left hcontra
        have hmm : x.1 ∈ List.map Prod.fst rest := List.mem_map_of_mem Prod.fst hx
        rw [hx1] at hmm
        exact hnd.1 hmm
    · rw [hstep]
      exact ih _ n h c hnd.2 htail hc

/-- Claim C9: decompress_gzip is total only for inputs of at least 4
bytes: on every shorter input the ISIZE offset computation underflows
and the slice indexing panics instead of returning a decompression
error. -/
theorem volt_c9_short_input_panics
    (gzipDecompress : Bytes → Bytes → Option Bytes)
    (gz_data : Bytes) (h : gz_data.length < 4) :
    decompress_gzip gzipDecompress gz_data = GzResult.panicked := by
  unfold decompress_gzip
  have h1 : (gz_data.length + (2 ^ 64 - 4)) % 2 ^ 64 = gz_data.length + (2 ^ 64 - 4) :=
    Nat.mod_eq_of_lt (by omega)
  rw [h1, if_pos (by omega)]

/-- Witness for C9 at the empty input. -/
theorem volt_c9_witness :
    decompress_gzip (fun _ _ => none) [] = GzResult.panicked :=
  volt_c9_short_input_panics (fun _ _ => none) [] (by decide)

/-- Claim C6: whenever decompress_gzip succeeds, the returned buffer
has exactly the length given by the last four input bytes read as a
little-endian 32-bit integer, and the oracle was invoked on a zeroed
buffer pre-allocated at exactly that length.  The hypothesis `hpres`
records that libdeflater's gzip_decompress fills a mutable byte slice
and therefore cannot change its length. -/
theorem volt_c6_isize_length
    (gzipDecompress : Bytes → Bytes → Option Bytes)
    (hpres : ∀ g b o, gzipDecompress g b = some o → o.length = b.length)
    (gz_data out : Bytes)
    (h : decompress_gzip gzipDecompress gz_data = GzResult.ok out) :
    out.length = byteLE4 (gz_data.drop (gz_data.length - 4)) ∧
    byteLE4 (gz_data.drop (gz_data.length - 4)) < 2 ^ 32 ∧
    gzipDecompress gz_data
      (List.replicate (byteLE4 (gz_data.drop (gz_data.length - 4))) 0) = some out := by
  unfold decompress_gzip at h
  by_cases hp : (gz_data.length + (2 ^ 64 - 4)) % 2 ^ 64 > gz_data.length
  · rw [if_pos hp] at h
    exact absurd h (by simp)
  · rw [if_neg hp] at h
    by_cases h4 : (gz_data.drop ((gz_data.length + (2 ^ 64 - 4)) % 2 ^ 64)).length = 4
    · have hstart : (gz_data.length + (2 ^ 64 - 4)) % 2 ^ 64 = gz_data.length - 4 := by
        rw [List.length_drop] at h4
        omega
      rw [if_pos h4, hstart] at h
      cases hcall : gzipDecompress gz_data
          (List.replicate (byteLE4 (gz_data.drop (gz_data.length - 4))) 0) with
      | none => rw [hcall] at h; exact absurd h (by simp)
      | some filled =>
        rw [hcall] at h
        have hout : filled = out := by
          have := h
          simp only [GzResult.ok.injEq] at this
          exact this
        subst hout
        refine ⟨?_, ?_, rfl⟩
        · have := hpres gz_data
            (List.replicate (byteLE4 (gz_data.drop (gz_data.length - 4))) 0) filled hcall
          simpa using this
        · unfold byteLE4
          cases hd : gz_data.drop (gz_data.length - 4) with
          | nil => simp
          | cons a t =>
            cases t with
            | nil => simp
            | cons b t2 =>
              cases t2 with
              | nil => simp
              | cons c t3 =>
                cases t3 with
                | nil => simp
                | cons d t4 =>
                  cases t4 with
                  | nil =>
                    have ha : a % 256 < 256 := Nat.mod_lt _ (by omega)
                    have hb : b % 256 < 256 := Nat.mod_lt _ (by omega)
                    have hc2 : c % 256 < 256 := Nat.mod_lt _ (by omega)
                    have hd2 : d % 256 < 256 := Nat.mod_lt _ (by omega)
                    simp only []
                    omega
                  | cons e t5 => simp
    · rw [if_neg h4] at h
      exact absurd h (by simp)

/-- Witness for C6: an 8-byte input whose trailer encodes 5, with an
identity-filling oracle. -/
theorem volt_c6_witness :
    (List.replicate 5 (0 : Nat)).length =
      byteLE4 ([ 1, 2, 3, 4, 5, 0, 0, 0 ].drop ([ 1, 2, 3, 4, 5, 0, 0, 0 ].length - 4)) ∧
    byteLE4 ([ 1, 2, 3, 4, 5, 0, 0, 0 ].drop ([ 1, 2, 3, 4, 5, 0, 0, 0 ].length - 4)) < 2 ^ 32 ∧
    (fun (_ b : Bytes) => some b) [ 1, 2, 3, 4, 5, 0, 0, 0 ]
      (List.replicate (byteLE4 ([ 1, 2, 3, 4, 5, 0, 0, 0 ].drop ([ 1, 2, 3, 4, 5, 0, 0, 0 ].length - 4))) 0) =
      some (List.replicate 5 0) :=
  volt_c6_isize_length (fun _ b => some b)
    (by intro g b o h; cases h; rfl)
    [ 1, 2, 3, 4, 5, 0, 0, 0 ] (List.replicate 5 0) (by decide)

/-- Claim C2 (code bug): for an SRI string whose algorithm tag is
neither sha1 nor sha512 — including space-separated multi-hash SRI —
verify_checksum does not reject the input: the prefix test silently
selects Sha512, a digest is computed with it and compared, and the
mismatching digest is returned as an ordinary comparison failure
instead of an IntegrityError. -/
theorem volt_c2_unknown_sri_hashed_as_sha512 :
    checksum_algorithm "sha256-xyz".data = HashAlg.sha512 ∧
    checksum_algorithm "md5-abc".data = HashAlg.sha512 ∧
    checksum_algorithm "sha512-AAA sha1-BBB".data = HashAlg.sha512 ∧
    verify_checksum calcHashW [ 1, 2, 3 ] "sha256-xyz".data =
      (false, some "sha512-CALC".data) := by
  decide

/-- Claim C4 (code bug): when the dependency-link location already
exists and the existing entry points exactly at the intended target,
link creation does not succeed: the unix code path reacts to the
EEXIST error by printing and calling std::process::exit(1) (and it
never inspects where the existing entry points, so no LinkConflict is
ever produced either).  The second conjunct documents that the
pre-existing entry in this evaluation points at the intended target. -/
theorem volt_c4_eexist_exits_process :
    (link_dependencies pkgC4 [ "nm".data ] linksC4).outcome =
      InstallOutcome.processExit 1 ∧
    linksGet linksC4 (dependency_slot [ "nm".data ] pkgC4 "b".data "2".data).2 =
      some (dependency_slot [ "nm".data ] pkgC4 "b".data "2".data).1 := by
  decide

/-- Claim C10: for every dependency edge, link_dependencies derives
the name used in both the link path and the target path from the map
key with every occurrence of "@" ++ version removed.  Consequently a
key of the form name@version produces exactly the paths of the plain
name (first conjunct, for ordinary names and versions), and a
dependency name that legitimately contains that substring is silently
altered (second and third conjuncts: key "foo@4.0.0bar" with version
"4.0.0" yields the paths of "foobar"). -/
theorem volt_c10_dependency_key_normalization :
    (∀ (node_modules : FsPath) (pkg : VoltPackage) (version name : List Char),
        '@' ∉ version → ¬ ('@' :: version) <:+: name →
        dependency_slot node_modules pkg (name ++ '@' :: version) version =
          dependency_slot node_modules pkg name version) ∧
    dependency_slot [ "nm".data ] pkgC4 "foo@4.0.0bar".data "4.0.0".data =
      dependency_slot [ "nm".data ] pkgC4 "foobar".data "4.0.0".data ∧
    "foo@4.0.0bar".data ≠ "foobar".data := by
  refine ⟨?_, by decide, by decide⟩
  intro node_modules pkg version name hv hninf
  unfold dependency_slot
  have h1 : replaceList (name ++ '@' :: version) ('@' :: version) [] = name := by
    unfold replaceList
    exact replaceGo_append_pat version hv (name ++ '@' :: version).length name
      (Nat.le_refl _) hninf
  have h2 : replaceList name ('@' :: version) [] = name := by
    unfold replaceList
    exact replaceGo_of_not_infix ('@' :: version) [] name.length name hninf
  rw [h1, h2]

/-- Witness for C10: the key "ms@2.1.3" with version "2.1.3" produces
the same link and target paths as the plain name "ms". -/
theorem volt_c10_witness :
    dependency_slot [ "nm".data ] pkgC4 ( "ms".data ++ '@' :: "2.1.3".data) "2.1.3".data =
      dependency_slot [ "nm".data ] pkgC4 "ms".data "2.1.3".data :=
  volt_c10_dependency_key_normalization.1 [ "nm".data ] pkgC4 "2.1.3".data "ms".data
    (by decide) (by decide)

/-- Claim C1 (code bug): on an integrity mismatch install_package
returns plain success with no error value — the branch is literally
"TODO: handle checksum failure" — so no IntegrityError is emitted and
nothing records the package as failed.  The trace contains exactly
the fetch and the checksum comparison: no decompression, extraction,
mkdir, file write or link happens, and the file table is unchanged
(so the no-files-written half of the claim does hold). -/
theorem volt_c1_integrity_mismatch_is_silent_success :
    install_package [ "nm".data ] pkgC1 envC1 [] [] =
      ⟨InstallOutcome.success, [Event.fetch, Event.verifyChecksum], [], []⟩ := by
  decide

/-- Claim C3 (code bug): for the scoped package @babel/core 7.0.0 the
materialization root actually built by install_package keeps the raw
name (with its slash, creating an extra directory level) in the
versioned segment and escapes the final segment with a backslash,
while the specified root escapes '/' to '+' in the versioned segment
and keeps the scoped structure in the final node_modules/ subtree.
The two disagree. -/
theorem volt_c3_scoped_package_path_differs_from_spec :
    install_package_path [ "nm".data ]
        ⟨ "@babel/core".data, "7.0.0".data, "sha1-i".data, none⟩ =
      [ "nm".data, ".volt".data, "@babel".data, "core@7.0.0".data,
        "node_modules".data, "@babel\\core".data ] ∧
    spec_materialization_root [ "nm".data ] "@babel/core".data "7.0.0".data =
      [ "nm".data, ".volt".data, "@babel+core@7.0.0".data,
        "node_modules".data, "@babel".data, "core".data ] ∧
    install_package_path [ "nm".data ]
        ⟨ "@babel/core".data, "7.0.0".data, "sha1-i".data, none⟩ ≠
      spec_materialization_root [ "nm".data ] "@babel/core".data "7.0.0".data := by
  decide

/-- Claim C8 (code bug): materializing two files of the same
subdirectory issues the directory-creation syscall for that directory
twice, not at most once — the memo records file paths rather than
created directories (and is additionally reset for every 6-entry
chunk), so the membership test never fires for a second file in the
same directory. -/
theorem volt_c8_mkdir_repeated_for_same_directory :
    ((install_package [ "nm".data ] pkgC8 envC8 [] []).events.count
      (Event.mkdirAll (install_package_path [ "nm".data ] pkgC8 ++ [ "lib".data ]))) = 2 := by
  decide

/-- Claim C5 counterexample: the target file already exists with
contents equal to the blob (second conjunct), yet materialization
still performs a write to it (first conjunct): File::create +
write_all run unconditionally, so "no write occurs" is false. -/
theorem volt_c5_counterexample_equal_contents_still_written :
    Event.writeFile (install_package_path [ "nm".data ] pkgC8 ++ [ "index.js".data ]) [ 1, 2 ] ∈
      (install_package [ "nm".data ] pkgC8 envC5 fsC5 []).events ∧
    fsGet fsC5 (install_package_path [ "nm".data ] pkgC8 ++ [ "index.js".data ]) =
      some [ 1, 2 ] := by
  decide

/-- Claim C5, amended: during materialization every file-map entry's
target file is written unconditionally with the entry's blob — a write
occurs whatever the initial file table holds, in particular when the
target already exists with equal contents — and afterwards the file
holds exactly the blob contents (so a target with different prior
contents is overwritten). -/
theorem volt_c5_unconditional_write
    (node_modules : FsPath) (pkg : VoltPackage) (env : InstallEnv)
    (fs : Fs) (links : LinkFs) (fileMap : List (FsPath × Nat))
    (hcas : env.casRead = some fileMap)
    (hnodup : (fileMap.map Prod.fst).Nodup)
    (hblobs : ∀ nh ∈ fileMap, (env.blobRead nh.2).isSome = true)
    (n : FsPath) (h : Nat) (c : Bytes)
    (hmem : (n, h) ∈ fileMap) (hc : env.blobRead h = some c) :
    Event.writeFile (install_package_path node_modules pkg ++ n) c ∈
      (install_package node_modules pkg env fs links).events ∧
    fsGet (install_package node_modules pkg env fs links).fs
      (install_package_path node_modules pkg ++ n) = some c := by
  have hall : ∀ chunk ∈ toChunks6 fileMap, ∀ nh ∈ chunk, (env.blobRead nh.2).isSome = true := by
    intro chunk hchunk nh hnh
    apply hblobs
    rw [← toChunks6_flatten fileMap]
    exact List.mem_flatten.mpr ⟨chunk, hchunk, hnh⟩
  have hma := materializeAll_success_fs env.blobRead
    (install_package_path node_modules pkg) (toChunks6 fileMap) fs hall
  have hjm : (n, h) ∈ (toChunks6 fileMap).flatten := by
    rw [toChunks6_flatten]
    exact hmem
  obtain ⟨chunk, hchunk, hmemc⟩ := List.mem_flatten.mp hjm
  constructor
  · simp only [install_package, hcas]
    rw [if_pos hma.1]
    exact List.mem_append_left _
      (materializeAll_write_mem env.blobRead (install_package_path node_modules pkg)
        (toChunks6 fileMap) fs hall n h c chunk hchunk hmemc hc)
  · simp only [install_package, hcas]
    rw [if_pos hma.1]
    show fsGet (materializeAll env.blobRead (install_package_path node_modules pkg)
      (toChunks6 fileMap) fs).1 (install_package_path node_modules pkg ++ n) = some c
    rw [hma.2, toChunks6_flatten]
    exact fsGet_matFolds_mem env.blobRead (install_package_path node_modules pkg)
      fileMap fs n h c hnodup hmem hc

/-- Witness for the amended C5 at the concrete cache-hit environment
whose target file already exists with contents equal to the blob. -/
theorem volt_c5_witness :
    Event.writeFile (install_package_path [ "nm".data ] pkgC8 ++ [ "index.js".data ]) [ 1, 2 ] ∈
      (install_package [ "nm".data ] pkgC8 envC5 fsC5 []).events ∧
    fsGet (install_package [ "nm".data ] pkgC8 envC5 fsC5 []).fs
      (install_package_path [ "nm".data ] pkgC8 ++ [ "index.js".data ]) = some [ 1, 2 ] :=
  volt_c5_unconditional_write [ "nm".data ] pkgC8 envC5 fsC5 []
    [ ( [ "index.js".data ], 7) ] rfl (by decide) (by decide)
    [ "index.js".data ] 7 [ 1, 2 ] (by decide) (by decide)

/-- Claim C7: on a cache hit (verify_existing_installation succeeded)
install_package performs no fetch, no integrity verification, no
decompression and no extraction — no such event appears in the trace —
and every file write materializes a cached file-map entry: its path is
the entry's path under the package root and its contents are the
entry's blob. -/
theorem volt_c7_cache_hit_skips_pipeline
    (node_modules : FsPath) (pkg : VoltPackage) (env : InstallEnv)
    (fs : Fs) (links : LinkFs) (fileMap : List (FsPath × Nat))
    (hcas : env.casRead = some fileMap) :
    ∀ e ∈ (install_package node_modules pkg env fs links).events,
      (e ≠ Event.fetch ∧ e ≠ Event.verifyChecksum ∧
       e ≠ Event.decompress ∧ e ≠ Event.extract) ∧
      (∀ p c, e = Event.writeFile p c →
        ∃ n h, (n, h) ∈ fileMap ∧
          p = install_package_path node_modules pkg ++ n ∧
          env.blobRead h = some c) := by
  intro e he
  simp only [install_package, hcas] at he
  have hmat : ∀ x ∈ (materializeAll env.blobRead (install_package_path node_modules pkg)
      (toChunks6 fileMap) fs).2.1,
      matEventOf env.blobRead (install_package_path node_modules pkg) fileMap x := by
    intro x hx
    have := materializeAll_events env.blobRead (install_package_path node_modules pkg)
      (toChunks6 fileMap) fs x hx
    rw [toChunks6_flatten] at this
    exact this
  have hev : matEventOf env.blobRead (install_package_path node_modules pkg) fileMap e ∨
      (∃ a b, e = Event.symlink a b) := by
    by_cases hok : (materializeAll env.blobRead (install_package_path node_modules pkg)
        (toChunks6 fileMap) fs).2.2 = true
    · rw [if_pos hok] at he
      simp only [List.mem_append] at he
      rcases he with hm | hl
      · exact Or.inl (hmat e hm)
      · exact Or.inr (link_dependencies_events pkg node_modules links e hl)
    · rw [if_neg hok] at he
      exact Or.inl (hmat e he)
  rcases hev with hm | ⟨a, b, rfl⟩
  · cases e with
    | mkdirAll p => exact ⟨by simp, by simp⟩
    | writeFile p c =>
      refine ⟨by simp, ?_⟩
      intro p' c' hpc
      have hp : p' = p ∧ c' = c := by
        constructor <;> injection hpc <;> simp_all
      obtain ⟨rfl, rfl⟩ := hp
      exact hm
    | fetch => exact absurd hm (by simp [matEventOf])
    | verifyChecksum => exact absurd hm (by simp [matEventOf])
    | decompress => exact absurd hm (by simp [matEventOf])
    | extract => exact absurd hm (by simp [matEventOf])
    | symlink a b => exact absurd hm (by simp [matEventOf])
  · exact ⟨by simp, by simp⟩

/-- Witness for C7: the concrete cache-hit environment of C8. -/
theorem volt_c7_witness :
    Event.writeFile (install_package_path [ "nm".data ] pkgC8 ++ [ "lib".data, "a.js".data ]) [ 10 ] ≠
      Event.fetch ∧
    Event.writeFile (install_package_path [ "nm".data ] pkgC8 ++ [ "lib".data, "a.js".data ]) [ 10 ] ≠
      Event.verifyChecksum ∧
    Event.writeFile (install_package_path [ "nm".data ] pkgC8 ++ [ "lib".data, "a.js".data ]) [ 10 ] ≠
      Event.decompress ∧
    Event.writeFile (install_package_path [ "nm".data ] pkgC8 ++ [ "lib".data, "a.js".data ]) [ 10 ] ≠
      Event.extract :=
  (volt_c7_cache_hit_skips_pipeline [ "nm".data ] pkgC8 envC8 [] []
    [ ( [ "lib".data, "a.js".data ], 1), ( [ "lib".data, "b.js".data ], 2) ] rfl
    (Event.writeFile (install_package_path [ "nm".data ] pkgC8 ++ [ "lib".data, "a.js".data ]) [ 10 ])
    (by decide)).1
